import Mathlib

/-!
Shallow embedding of the crossword-generator repository
(`src/crossword.rs`, `src/crossword_generator/word.rs`,
`src/crossword_generator/generator.rs`) and proofs about the claims of
its specification.

Modelling conventions:
* Rust `isize` becomes `Int`; `usize` lengths become `Nat`.
* `str::len()` is the UTF-8 byte length, modelled by `strByteLen`;
  `chars().count()` is the character count, modelled by `List.length`
  of the string's character data.  The two differ on non-ASCII text and
  the source mixes both, so the embedding keeps them distinct.
* a Rust `as usize` cast of an `isize` is `usizeCast` (wrap modulo 2^64).
* code that can panic (`unwrap` on `None`, out-of-bounds `Vec` indexing)
  is modelled in `Option`, `none` standing for the panic.
* `BTreeSet` is modelled as a duplicate-free list; no theorem below
  depends on the sorted iteration order of the Rust container, so the
  list order is the insertion order produced by the translated code.
-/

set_option autoImplicit false
set_option maxRecDepth 4000

namespace Cwg

/-- Largest value of a 64-bit `isize`; positions of real crosswords fit in it. -/
def isizeMax : Int := 2 ^ 63 - 1

/-- Model of a Rust `as usize` cast of an `isize`: wrap modulo `2^64`. -/
def usizeCast (i : Int) : Nat := (i % (2 ^ 64 : Int)).toNat

/-- UTF-8 byte length of a string, the value of Rust `str::len()`. -/
def strByteLen (s : String) : Nat := s.data.foldl (fun n c => n + c.utf8Size) 0

/-- Field `WordPosition { x, y }` of `word.rs`. -/
structure WordPosition where
  x : Int
  y : Int
  deriving DecidableEq, Repr

/-- Enum `WordDirection { Right, Down }` of `word.rs`. -/
inductive WordDirection where
  | Right
  | Down
  deriving DecidableEq, Repr

/-- Function `WordDirection::opposite`. -/
def WordDirection.opposite : WordDirection → WordDirection
  | .Down => .Right
  | .Right => .Down

/-- Struct `Word { position, direction, value }`. -/
structure Word where
  position : WordPosition
  direction : WordDirection
  value : String
  deriving DecidableEq, Repr

/-- Rust `Word::default()`: origin position, direction `Right`, empty text. -/
def wordDefault : Word := ⟨⟨0, 0⟩, .Right, ""⟩

instance : Inhabited Word := ⟨wordDefault⟩

/-- Struct `WordBoundingBox { x, y, w, h }`. -/
structure WordBoundingBox where
  x : Int
  y : Int
  w : Nat
  h : Nat
  deriving DecidableEq, Repr

namespace WordBoundingBox

/-- Function `WordBoundingBox::same_direction_as`. -/
def same_direction_as (a b : WordBoundingBox) : Bool :=
  (a.w == 1 && b.w == 1) || (a.h == 1 && b.h == 1)

/-- Function `WordBoundingBox::intersects`. -/
def intersects (a b : WordBoundingBox) : Bool :=
  (decide (a.x < b.x + (b.w : Int)) && decide (a.x + (a.w : Int) > b.x)) &&
  (decide (a.y < b.y + (b.h : Int)) && decide (a.y + (a.h : Int) > b.y))

/-- Function `WordBoundingBox::side_touches_side`. -/
def side_touches_side (a b : WordBoundingBox) : Bool :=
  if !(a.same_direction_as b) then false
  else if a.h == 1 then
    (a.y - b.y).natAbs == 1 &&
      (decide (a.x < b.x + (b.w : Int)) && decide (a.x + (a.w : Int) > b.x))
  else
    (a.x - b.x).natAbs == 1 &&
      (decide (a.y < b.y + (b.h : Int)) && decide (a.y + (a.h : Int) > b.y))

/-- Function `WordBoundingBox::side_touches_head` (with its hor/ver
decomposition picking the height-1 box as `hor`). -/
def side_touches_head (a b : WordBoundingBox) : Bool :=
  if a.same_direction_as b then false
  else
    let hor := if a.h == 1 then a else b
    let ver := if a.h == 1 then b else a
    decide (hor.x + (hor.w : Int) ≥ ver.x) &&
    decide (hor.x ≤ ver.x + 1) &&
    decide (hor.y + 1 ≥ ver.y) &&
    decide (hor.y ≤ ver.y + (ver.h : Int)) &&
    ((decide (hor.x + (hor.w : Int) = ver.x)).toNat +
     (decide (hor.x = ver.x + 1)).toNat +
     (decide (hor.y + 1 = ver.y)).toNat +
     (decide (hor.y = ver.y + (ver.h : Int))).toNat == 1)

/-- Function `WordBoundingBox::head_touches_head`. -/
def head_touches_head (a b : WordBoundingBox) : Bool :=
  if !(a.same_direction_as b) then false
  else if a.h == 1 then
    a.y == b.y && (a.x + (a.w : Int) == b.x || b.x + (b.w : Int) == a.x)
  else
    a.x == b.x && (a.y + (a.h : Int) == b.y || b.y + (b.h : Int) == a.y)

/-- Function `WordBoundingBox::corners`. -/
def corners (a b : WordBoundingBox) : Bool :=
  (a.x == b.x + (b.w : Int) && a.y == b.y + (b.h : Int)) ||
  (a.x + (a.w : Int) == b.x && a.y == b.y + (b.h : Int)) ||
  (a.x + (a.w : Int) == b.x && a.y + (a.h : Int) == b.y) ||
  (a.x == b.x + (b.w : Int) && a.y + (a.h : Int) == b.y)

/-- Function `WordBoundingBox::get_intersection_indices`. -/
def get_intersection_indices (a b : WordBoundingBox) : Option (Nat × Nat) :=
  if !(a.intersects b) then none
  else if a.same_direction_as b then none
  else if a.h == 1 then some (usizeCast (b.x - a.x), usizeCast (a.y - b.y))
  else some (usizeCast (b.y - a.y), usizeCast (a.x - b.x))

end WordBoundingBox

/-- Function `Word::get_bounding_box`; the extent along the run direction is
the Rust `self.value.len()`, a byte count. -/
def Word.get_bounding_box (w : Word) : WordBoundingBox :=
  match w.direction with
  | .Right => ⟨w.position.x, w.position.y, strByteLen w.value, 1⟩
  | .Down => ⟨w.position.x, w.position.y, 1, strByteLen w.value⟩

/-- Struct `WordCompatibilitySettings`. -/
structure WordCompatibilitySettings where
  side_by_side : Bool
  head_by_head : Bool
  side_by_head : Bool
  corner_by_corner : Bool
  deriving DecidableEq, Repr

/-- Rust `WordCompatibilitySettings::default()`: only `corner_by_corner`. -/
def WordCompatibilitySettings.default : WordCompatibilitySettings :=
  ⟨false, false, false, true⟩

instance : Inhabited WordCompatibilitySettings := ⟨.default⟩

/-- Function `WordCompatibilitySettings::are_words_compatible`.  The
`get_intersection_indices(...).unwrap()` of the different-direction branch is
modelled in `Option`: `none` is the Rust panic on unwrapping a `None`. -/
def WordCompatibilitySettings.are_words_compatible
    (s : WordCompatibilitySettings) (first second : Word) : Option Bool :=
  if first.get_bounding_box.corners second.get_bounding_box && !s.corner_by_corner then
    some false
  else if first.direction = second.direction then
    if first.get_bounding_box.head_touches_head second.get_bounding_box
        && !s.head_by_head then some false
    else if first.get_bounding_box.side_touches_side second.get_bounding_box
        && !s.side_by_side then some false
    else if first.get_bounding_box.intersects second.get_bounding_box then some false
    else some true
  else
    if first.get_bounding_box.side_touches_head second.get_bounding_box
        && !s.side_by_head then some false
    else if first.get_bounding_box.intersects second.get_bounding_box then
      match first.get_bounding_box.get_intersection_indices second.get_bounding_box with
      | none => none
      | some (first_ind, second_ind) =>
        some ((first.value.data.get? first_ind).isSome &&
          (second.value.data.get? second_ind).isSome &&
          (first.value.data.get? first_ind) == (second.value.data.get? second_ind))
    else some true

/-- Occurrence indices of character `c` in `s`: the Rust
`s.chars().enumerate().filter_map(|p| if p.1 == c { Some(p.0) } else { None })`. -/
def occurrenceIdx (s : List Char) (c : Char) : List Nat :=
  s.enum.filterMap (fun p => if p.2 = c then some p.1 else none)

/-- Candidate built by `Word::calculate_possible_ways_to_add_word` from the
occurrence pair `(word_ind, self_ind)`. -/
def Word.mkWay (self : Word) (word : String) (ij : Nat × Nat) : Word :=
  { position :=
      match self.direction with
      | .Right => ⟨self.position.x + (ij.2 : Int), self.position.y - (ij.1 : Int)⟩
      | .Down => ⟨self.position.x - (ij.1 : Int), self.position.y + (ij.2 : Int)⟩,
    direction := self.direction.opposite,
    value := word }

/-- Function `Word::calculate_possible_ways_to_add_word`: for every character
of `word` that occurs in `self.value`, insert into the result set one
candidate per pair of occurrence indices (cartesian product). -/
def Word.calculate_possible_ways_to_add_word (self : Word) (word : String) : List Word :=
  let common_chars := word.data.filter (fun c => self.value.data.contains c)
  common_chars.foldl (fun pos_ways c =>
    ((occurrenceIdx word.data c).product (occurrenceIdx self.value.data c)).foldl
      (fun pw ij => pw.insert (self.mkWay word ij)) pos_ways) []

/-- Enum `CrosswordSizeConstrain` of `crossword.rs`. -/
inductive CrosswordSizeConstrain where
  | MaxLength (n : Nat)
  | MaxHeight (n : Nat)
  | MaxArea (n : Nat)
  | None
  deriving DecidableEq, Repr

/-- Struct `CrosswordSettings`: an ordered list of size constraints. -/
structure CrosswordSettings where
  size_constraints : List CrosswordSizeConstrain
  deriving DecidableEq, Repr

instance : Inhabited CrosswordSettings := ⟨⟨[]⟩⟩

/-- Struct `Crossword` of `crossword.rs`: the placed words (a `BTreeSet`,
modelled as a duplicate-free list) and the two embedded settings.  The
misspelled field name is the source's. -/
structure Crossword where
  words : List Word
  word_compatibitity_settings : WordCompatibilitySettings
  crossword_settings : CrosswordSettings
  deriving DecidableEq, Repr

instance : Inhabited Crossword := ⟨⟨[], .default, ⟨[]⟩⟩⟩

/-- Minimum-corner fold of `Crossword::normalize`, starting from
`(isize::MAX, isize::MAX)` as in the source. -/
def minCorner (ws : List Word) : Int × Int :=
  ws.foldl (fun mc w => (min mc.1 w.position.x, min mc.2 w.position.y))
    (isizeMax, isizeMax)

/-- Function `Crossword::normalize` on the word collection: translate every
word by the negated minimum position components. -/
def normalizeWords (ws : List Word) : List Word :=
  ws.map (fun w =>
    { w with position := ⟨w.position.x - (minCorner ws).1, w.position.y - (minCorner ws).2⟩ })

/-- Function `Crossword::normalize`. -/
def Crossword.normalize (cw : Crossword) : Crossword :=
  { cw with words := normalizeWords cw.words }

/-- Function `Crossword::new`: collect the given words into the set and
normalize once (the word list of every use below is duplicate-free, so the
`BTreeSet` collect is the identity on it). -/
def Crossword.new (ws : List Word) : Crossword :=
  Crossword.normalize ⟨ws, .default, ⟨[]⟩⟩

/-- Function `Crossword::add_word` on the word collection: no-op when a word
of equal text is present, otherwise insert and renormalize. -/
def addWordL (ws : List Word) (word : Word) : List Word :=
  if ws.any (fun w => w.value == word.value) then ws
  else normalizeWords (ws.insert word)

/-- Function `Crossword::remove_word` on the word collection: locate the last
word of matching text (the scan starting from `Word::default()`), remove it
from the set, renormalize. -/
def removeWordL (ws : List Word) (word : String) : List Word :=
  let word_to_remove :=
    ws.foldl (fun acc w => if w.value = word then w else acc) wordDefault
  normalizeWords (ws.erase word_to_remove)

/-- Function `Crossword::add_word`. -/
def Crossword.add_word (cw : Crossword) (word : Word) : Crossword :=
  { cw with words := addWordL cw.words word }

/-- Function `Crossword::remove_word`. -/
def Crossword.remove_word (cw : Crossword) (word : String) : Crossword :=
  { cw with words := removeWordL cw.words word }

/-- Function `Crossword::find_word`: first word of matching text. -/
def findWord (ws : List Word) (word : String) : Option Word :=
  ws.find? (fun w => w.value = word)

/-- Loop body of `Crossword::contains_crossword`: check `other`'s words one
by one, threading the optional translation offset. -/
def containsAux (self : List Word) : List Word → Option (Int × Int) → Bool
  | [], _ => true
  | ow :: rest, offset =>
    match findWord self ow.value with
    | none => false
    | some cur_word =>
      if cur_word.direction ≠ ow.direction then false
      else
        let d := (cur_word.position.x - ow.position.x, cur_word.position.y - ow.position.y)
        match offset with
        | none => containsAux self rest (some d)
        | some o => if o ≠ d then false else containsAux self rest (some o)

/-- Function `Crossword::contains_crossword`. -/
def containsWords (self other : List Word) : Bool :=
  if other.length > self.length then false
  else containsAux self other none

/-- Function `Crossword::contains_crossword` on the aggregate. -/
def Crossword.contains_crossword (cw other : Crossword) : Bool :=
  containsWords cw.words other.words

/-- All-words compatibility check of `Crossword::can_word_be_added`,
iterating the placed words; a panic inside `are_words_compatible`
propagates, and `all` stops at the first incompatible word. -/
def canAddAux (s : WordCompatibilitySettings) (word : Word) : List Word → Option Bool
  | [] => some true
  | w :: ws =>
    match s.are_words_compatible w word with
    | none => none
    | some false => some false
    | some true => canAddAux s word ws

/-- Function `Crossword::can_word_be_added`, with the compatibility settings
passed explicitly so that it serves both the aggregate (which stores them)
and the generator (which passes its own). -/
def canWordBeAdded (s : WordCompatibilitySettings) (ws : List Word) (word : Word) : Bool :=
  (canAddAux s word ws).getD false

/-- Option-valued filter: keep the candidates the crossword accepts,
propagating a panic raised while evaluating any candidate. -/
def filterAddable (s : WordCompatibilitySettings) (ws : List Word) :
    List Word → Option (List Word)
  | [] => some []
  | c :: cs =>
    match canAddAux s c ws with
    | none => none
    | some true => (filterAddable s ws cs).map (c :: ·)
    | some false => filterAddable s ws cs

/-- Function `Crossword::calculate_possible_ways_to_add_word` on a word
collection with explicit settings: seed placement on the empty crossword,
otherwise the union over placed words of their candidates, filtered by
`can_word_be_added`. -/
def calcWays (s : WordCompatibilitySettings) (ws : List Word) (word : String) :
    Option (List Word) :=
  if ws.isEmpty then some [{ wordDefault with value := word }]
  else
    (filterAddable s ws
      (ws.flatMap (fun cur => cur.calculate_possible_ways_to_add_word word))).map
      List.dedup

/-- Function `Crossword::calculate_possible_ways_to_add_word` of
`crossword.rs`, which uses the settings embedded in the aggregate. -/
def Crossword.calculate_possible_ways_to_add_word (cw : Crossword) (word : String) :
    Option (List Word) :=
  calcWays cw.word_compatibitity_settings cw.words word

/-- Function `CrosswordSizeConstrain::is_crossword_valid` needs the crossword
size; function `Crossword::get_size`, whose extents use `chars().count()`. -/
def getSize (ws : List Word) : Nat × Nat :=
  let mc := ws.foldl
    (fun mc w =>
      let mc := (max mc.1 (w.position.x + 1), max mc.2 (w.position.y + 1))
      match w.direction with
      | .Right => (max mc.1 (w.position.x + (w.value.data.length : Int)), mc.2)
      | .Down => (mc.1, max mc.2 (w.position.y + (w.value.data.length : Int))))
    (0, 0)
  (usizeCast mc.1, usizeCast mc.2)

/-- Function `CrosswordSizeConstrain::is_crossword_valid`. -/
def CrosswordSizeConstrain.is_crossword_valid (c : CrosswordSizeConstrain)
    (ws : List Word) : Bool :=
  let size := getSize ws
  match c with
  | .MaxLength l => size.1 ≤ l
  | .MaxHeight h => size.2 ≤ h
  | .MaxArea a => size.1 * size.2 ≤ a
  | .None => true

/-- Function `CrosswordSettings::is_crossword_valid`: all constraints hold. -/
def CrosswordSettings.is_crossword_valid (s : CrosswordSettings) (ws : List Word) : Bool :=
  s.size_constraints.all (fun c => c.is_crossword_valid ws)

/-- Bounds-checked cell write `table[r][c] = ch`; `none` is the Rust panic on
an out-of-range `Vec` index. -/
def setCell (table : List (List Char)) (r c : Nat) (ch : Char) :
    Option (List (List Char)) :=
  match table.get? r with
  | none => none
  | some row =>
    if c < row.length then some (table.set r (row.set c ch)) else none

/-- Write one word into the table, cell by cell in `chars().enumerate()`
order, as the inner loop of `Crossword::generate_char_table` does. -/
def writeWord (table : List (List Char)) (w : Word) : Option (List (List Char)) :=
  w.value.data.enum.foldlM (fun t p =>
    match w.direction with
    | .Right => setCell t (usizeCast w.position.y) (usizeCast w.position.x + p.1) p.2
    | .Down => setCell t (usizeCast w.position.y + p.1) (usizeCast w.position.x) p.2) table

/-- Function `Crossword::generate_char_table`: a `size()`-shaped table of
spaces with every word written into it. -/
def generateCharTable (ws : List Word) : Option (List (List Char)) :=
  let size := getSize ws
  ws.foldlM writeWord (List.replicate size.2 (List.replicate size.1 ' '))

/-- Function `Crossword::generate_string`: the dash frame, the `|`-bounded
rows with a space after each cell and the trailing cell-space popped, and the
closing frame; `table[0]` on an empty table is the Rust panic. -/
def generateString (ws : List Word) : Option String :=
  match generateCharTable ws with
  | none => none
  | some table =>
    match table with
    | [] => none
    | r0 :: _ =>
      let size := r0.length * 2 + 1
      let rows := table.flatMap (fun el =>
        ('|' :: el.flatMap (fun ch => [ch, ' '])).dropLast ++ ['|', '\n'])
      some (String.mk ((List.replicate size '-' ++ ['\n']) ++ rows ++
        (List.replicate size '-' ++ ['\n'])))

/-- Function `Crossword::generate_string` on the aggregate. -/
def Crossword.generate_string (cw : Crossword) : Option String :=
  generateString cw.words

/-- Struct `CrosswordGeneratorSettings` of `crossword_generator/generator.rs`. -/
structure CrosswordGeneratorSettings where
  word_compatibility_settings : WordCompatibilitySettings
  crossword_settings : CrosswordSettings
  deriving DecidableEq, Repr

/-- Struct `CrosswordGenerator`: the input word texts and the settings. -/
structure CrosswordGenerator where
  words : List String
  settings : CrosswordGeneratorSettings
  deriving DecidableEq, Repr

/-- Modelled from the spec: the generator's `Crossword` lives in
`crossword_generator/crossword.rs`, which is not among the sources (only its
callers in `crossword_generator/generator.rs` are).  Following spec section
4.4 and the sibling implementation in `crossword.rs`, it is the word
collection alone, with the compatibility settings passed explicitly to the
placement calculation; its operations are the list-level ones above.

Function `CrosswordGenerator::crossword_iter_rec_impl`, the recursive
engine, as a fuel-indexed function.  It returns the yielded crosswords in
emission order together with the final explored-base set and the final
state of the shared mutable crossword; `none` is a panic inside a
placement-candidate computation (or fuel exhaustion, which never happens at
the inputs evaluated below). -/
def recNode (g : CrosswordGeneratorSettings) :
    Nat → List Word → List String → List (List Word) →
    Option (List (List Word) × List (List Word) × List Word)
  | 0, _, _, _ => none
  | fuel + 1, current, remained, bases =>
    if !(g.crossword_settings.is_crossword_valid current) then some ([], bases, current)
    else if bases.any (fun cw => containsWords current cw) then some ([], bases, current)
    else if remained.isEmpty then some ([current], bases, current)
    else
      remained.foldlM (fun st w => do
        let (out, bases, current) := st
        let new_remained := remained.erase w
        let steps ← calcWays g.word_compatibility_settings current w
        steps.foldlM (fun st2 step => do
          let (out, bases, current) := st2
          let (o, bases1, cur2) ← recNode g fuel (addWordL current step) new_remained bases
          let bases2 := bases1.filter (fun cw => !(containsWords cw cur2))
          let bases3 := if bases2.contains cur2 then bases2 else bases2 ++ [cur2]
          pure (out ++ o, bases3, removeWordL cur2 step.value))
          (out, bases, current))
        ([], bases, current)

/-- Function `CrosswordGenerator::crossword_iter_rec` run to exhaustion: the
list of crosswords the coroutine yields, starting from `Crossword::new(&[])`
and the full input word set. -/
def crosswordIterRecResults (g : CrosswordGenerator) (fuel : Nat) :
    Option (List (List Word)) := do
  let (out, _, _) ← recNode g.settings fuel (normalizeWords []) g.words []
  pure out

/-- Struct `Frame` of the resumable iterator; the two iterator fields hold
the elements not yet produced. -/
structure Frame where
  remained_words : List String
  new_remained_words : List String
  current_word_iterator : List String
  current_word : Option String
  current_step_iterator : List Word
  current_step : Option Word
  deriving DecidableEq, Repr

/-- Function `Frame::new`: empty sets, empty iterators. -/
def Frame.new : Frame := ⟨[], [], [], none, [], none⟩

/-- Struct `CrosswordIterator`, the state of the resumable engine.  The head
of `frame_stack` is the top of the Rust `Vec`. -/
structure CrosswordIterator where
  settings : CrosswordGeneratorSettings
  current_crossword : List Word
  full_created_crossword_bases : List (List Word)
  frame_stack : List Frame
  started : Bool
  ended : Bool
  deriving DecidableEq, Repr

/-- Inner `loop` of `CrosswordIterator::next`, computing `not_none`: advance
the top frame's word iterator until a step is available or the words run
out, filling `new_remained_words` and the step iterator on the way.  The
fuel bound below is always instantiated above the iterator length. -/
def innerLoop (s : CrosswordGeneratorSettings) (current : List Word) :
    Nat → Frame → Option (Frame × Bool)
  | 0, _ => none
  | fuel + 1, fr =>
    if fr.current_step.isSome then some (fr, true)
    else
      match fr.current_word_iterator with
      | [] => some ({ fr with current_word := none }, false)
      | w :: rest =>
        let fr := { fr with current_word := some w, current_word_iterator := rest }
        let fr := { fr with new_remained_words := fr.remained_words.erase w }
        match calcWays s.word_compatibility_settings current w with
        | none => none
        | some steps =>
          innerLoop s current fuel
            { fr with current_step_iterator := steps.tail, current_step := steps.head? }

/-- Outer `loop` of `CrosswordIterator::next`: either descend into a pushed
frame or pop exhausted frames, maintaining the explored-base set, until a
crossword is yielded (`some cw`) or the stack empties (`none` result with
`ended` set).  An outer `none` is a panic (or fuel exhaustion). -/
def outerLoop : Nat → CrosswordIterator → Option (Option (List Word) × CrosswordIterator)
  | 0, _ => none
  | fuel + 1, st =>
    match st.frame_stack with
    | [] => none
    | fr :: rest =>
      match innerLoop st.settings st.current_crossword
          (fr.current_word_iterator.length + 1) fr with
      | none => none
      | some (fr', not_none) =>
        if !not_none then
          let st1 := { st with frame_stack := rest }
          if rest.isEmpty then some (none, { st1 with ended := true })
          else
            match rest with
            | [] => none
            | top :: rem =>
              let current := st1.current_crossword
              let bases := st1.full_created_crossword_bases.filter
                (fun cw => !(containsWords cw current))
              let bases := if bases.contains current then bases else bases ++ [current]
              match top.current_step with
              | none => none
              | some stepw =>
                let top' := { top with
                  current_step := top.current_step_iterator.head?,
                  current_step_iterator := top.current_step_iterator.tail }
                outerLoop fuel { st1 with
                  current_crossword := removeWordL current stepw.value,
                  full_created_crossword_bases := bases,
                  frame_stack := top' :: rem }
        else
          match fr'.current_step with
          | none => none
          | some step =>
            let newFrame := { Frame.new with remained_words := fr'.new_remained_words }
            let st1 := { st with
              current_crossword := addWordL st.current_crossword step,
              frame_stack := newFrame :: fr' :: rest }
            if !(st1.settings.crossword_settings.is_crossword_valid
                st1.current_crossword) then
              outerLoop fuel st1
            else if st1.full_created_crossword_bases.any
                (fun cw => containsWords st1.current_crossword cw) then
              outerLoop fuel st1
            else if !newFrame.remained_words.isEmpty then
              outerLoop fuel { st1 with frame_stack :=
                { newFrame with current_word_iterator := newFrame.remained_words }
                  :: fr' :: rest }
            else some (some st1.current_crossword, st1)

/-- Function `CrosswordIterator::next`: the prologue (start, or pop after the
previous yield with the base-set update and the undo of the yielded step)
followed by the outer loop. -/
def iterNext (fuel : Nat) (st : CrosswordIterator) :
    Option (Option (List Word) × CrosswordIterator) :=
  if st.ended then some (none, st)
  else if !st.started then
    match st.frame_stack with
    | [] => none
    | fr :: rest =>
      outerLoop fuel { st with
        started := true
        frame_stack := { fr with current_word_iterator := fr.remained_words } :: rest }
  else
    match st.frame_stack with
    | [] => none
    | _ :: rest0 =>
      let st1 := { st with frame_stack := rest0 }
      let current := st1.current_crossword
      let bases := st1.full_created_crossword_bases.filter
        (fun cw => !(containsWords cw current))
      let bases := if bases.contains current then bases else bases ++ [current]
      match rest0 with
      | [] => none
      | top :: _ =>
        match top.current_step with
        | none => none
        | some stepw =>
          outerLoop fuel { st1 with
            current_crossword := removeWordL current stepw.value,
            full_created_crossword_bases := bases }

/-- Function `CrosswordGenerator::crossword_iter`: the initial iterator
state. -/
def CrosswordGenerator.crossword_iter (g : CrosswordGenerator) : CrosswordIterator :=
  { settings := g.settings
    current_crossword := []
    full_created_crossword_bases := []
    frame_stack := [{ Frame.new with remained_words := g.words }]
    started := false
    ended := false }

/-- Run the resumable engine to exhaustion: pull with `next` until it
returns `None`, collecting the yielded crosswords. -/
def runIter : Nat → CrosswordIterator → Option (List (List Word))
  | 0, _ => none
  | fuel + 1, st =>
    match iterNext (fuel + 1) st with
    | none => none
    | some (none, _) => some []
    | some (some cw, st') => (runIter fuel st').map (cw :: ·)

/-! Derived definitions used by the theorems below. -/

/-- The invariant: no two placed words share a text. -/
def distinctTexts (ws : List Word) : Prop := (ws.map (fun w => w.value)).Nodup

instance (ws : List Word) : Decidable (distinctTexts ws) := by
  unfold distinctTexts
  infer_instance

/-- A mutating call on a crossword: `add_word` or `remove_word`. -/
inductive CrosswordOp where
  | add (w : Word)
  | remove (v : String)

/-- Apply one mutating call. -/
def applyOp (ws : List Word) : CrosswordOp → List Word
  | .add w => addWordL ws w
  | .remove v => removeWordL ws v

/-- Horizontal extent a word contributes to `get_size`. -/
def extentX (w : Word) : Int :=
  match w.direction with
  | .Right => max (w.position.x + 1) (w.position.x + (w.value.data.length : Int))
  | .Down => w.position.x + 1

/-- Vertical extent a word contributes to `get_size`. -/
def extentY (w : Word) : Int :=
  match w.direction with
  | .Right => w.position.y + 1
  | .Down => max (w.position.y + 1) (w.position.y + (w.value.data.length : Int))

/-- Bounds hypothesis of the amended C10: nonnegative, representable
coordinates and extents, as every crossword the aggregate keeps normalized
satisfies. -/
def inBounds (w : Word) : Prop :=
  0 ≤ w.position.x ∧ 0 ≤ w.position.y ∧
  w.position.x + 1 ≤ isizeMax ∧ w.position.y + 1 ≤ isizeMax ∧
  w.position.x + (w.value.data.length : Int) ≤ isizeMax ∧
  w.position.y + (w.value.data.length : Int) ≤ isizeMax

instance (w : Word) : Decidable (inBounds w) := by
  unfold inBounds
  infer_instance

/-- Shape invariant of the character table. -/
def tableShape (H W : Nat) (t : List (List Char)) : Prop :=
  t.length = H ∧ ∀ row ∈ t, row.length = W

/-- Candidate placement as the specification describes it: direction opposite
to the existing word's and the position putting cell `j` of the existing word
on cell `i` of the candidate — `(x + j, y - i)` for a Horizontal existing
word and `(x - i, y + j)` for a Vertical one, with no validity checking. -/
def specCandidate (w : Word) (t : String) (i j : Nat) : Word :=
  { position :=
      match w.direction with
      | .Right => ⟨w.position.x + (j : Int), w.position.y - (i : Int)⟩
      | .Down => ⟨w.position.x - (i : Int), w.position.y + (j : Int)⟩
    direction := w.direction.opposite
    value := t }

/-! Concrete instances used by the claim theorems. -/

/-- Crossword of claim C6, as built by `Crossword::new` (already normalized),
listed in the ascending order of the Rust `BTreeSet`. -/
def cw6 : Crossword := Crossword.new
  [⟨⟨0, 0⟩, .Right, "hello"⟩, ⟨⟨0, 2⟩, .Right, "tac"⟩, ⟨⟨2, 0⟩, .Down, "local"⟩]

/-- Crossword of claim C8 before normalization, listed in the ascending order
of the Rust `BTreeSet`. -/
def cw8 : Crossword := Crossword.new
  [⟨⟨-1, -1⟩, .Right, "hello"⟩, ⟨⟨1, -1⟩, .Down, "local"⟩, ⟨⟨1, 1⟩, .Right, "cat"⟩,
   ⟨⟨2, 1⟩, .Down, "and"⟩, ⟨⟨3, 1⟩, .Down, "toy"⟩]

/-- Generation request with an empty word set and default settings. -/
def emptyGenerator : CrosswordGenerator :=
  ⟨[], ⟨.default, ⟨[]⟩⟩⟩

/-- C1: the two engines disagree on the empty word set, so the claim that
they always produce result sets of equal size and content fails on the code:
run to exhaustion, the recursive engine yields exactly the empty crossword
while the resumable engine yields nothing. -/
theorem C1_engines_disagree_on_empty_input :
    crosswordIterRecResults emptyGenerator 4 = some [[]] ∧
    runIter 6 emptyGenerator.crossword_iter = some [] ∧
    crosswordIterRecResults emptyGenerator 4 ≠ runIter 6 emptyGenerator.crossword_iter := by
  decide

/-- C2 counterexample: with a single-character word crossing another word's
box, `are_words_compatible` reaches `get_intersection_indices(...).unwrap()`
on a `None` (the boxes count as same-direction), i.e. it panics. -/
theorem C2_cex_single_char_crossing_panics :
    WordCompatibilitySettings.default.are_words_compatible
      ⟨⟨0, 0⟩, .Right, "a"⟩ ⟨⟨0, 0⟩, .Down, "ab"⟩ = none := by
  decide

/-- C3 counterexample: `side_touches_side` and `head_touches_head` are not
symmetric on boxes derived from words when exactly one word is a single
character (its box is 1x1 and takes the horizontal branch). -/
theorem C3_cex_asymmetric_touch_predicates :
    (WordBoundingBox.side_touches_side
        (Word.get_bounding_box ⟨⟨0, 0⟩, .Right, "a"⟩)
        (Word.get_bounding_box ⟨⟨0, 1⟩, .Down, "bc"⟩) ≠
      WordBoundingBox.side_touches_side
        (Word.get_bounding_box ⟨⟨0, 1⟩, .Down, "bc"⟩)
        (Word.get_bounding_box ⟨⟨0, 0⟩, .Right, "a"⟩)) ∧
    (WordBoundingBox.head_touches_head
        (Word.get_bounding_box ⟨⟨0, 0⟩, .Right, "a"⟩)
        (Word.get_bounding_box ⟨⟨1, 0⟩, .Down, "bc"⟩) ≠
      WordBoundingBox.head_touches_head
        (Word.get_bounding_box ⟨⟨1, 0⟩, .Down, "bc"⟩)
        (Word.get_bounding_box ⟨⟨0, 0⟩, .Right, "a"⟩)) := by
  decide

/-- C6: the crossword-level placement calculation for "hatlo" on the
hello/local/tac crossword under default settings returns exactly the three
candidates Vertical(0,0), Horizontal(-1,4), Vertical(4,-4). -/
theorem C6_concrete_placements :
    cw6.calculate_possible_ways_to_add_word "hatlo" =
      some [⟨⟨4, -4⟩, .Down, "hatlo"⟩, ⟨⟨0, 0⟩, .Down, "hatlo"⟩,
            ⟨⟨-1, 4⟩, .Right, "hatlo"⟩] ∧
    [(⟨⟨4, -4⟩, .Down, "hatlo"⟩ : Word), ⟨⟨0, 0⟩, .Down, "hatlo"⟩,
        ⟨⟨-1, 4⟩, .Right, "hatlo"⟩].Perm
      [⟨⟨0, 0⟩, .Down, "hatlo"⟩, ⟨⟨-1, 4⟩, .Right, "hatlo"⟩, ⟨⟨4, -4⟩, .Down, "hatlo"⟩] := by
  decide

/-- C8: the five-word crossword renders, after the normalization done at
construction, to exactly the framed string of the specification. -/
theorem C8_concrete_rendering :
    cw8.generate_string =
      some "-----------\n|h e l l o|\n|    o    |\n|    c a t|\n|    a n o|\n|    l d y|\n-----------\n" := by
  decide

/-- C10 counterexample: on the empty crossword `generate_string` indexes
`table[0]` of an empty table and panics, so it is not total at the public
interface. -/
theorem C10_cex_empty_crossword_panics :
    (Crossword.new []).generate_string = none := by
  decide

/-! Totality and symmetry of the geometry and compatibility layer. -/

/-- Boxes of words of different directions and byte length at least two are
never counted as same-direction. -/
lemma same_direction_as_false_of_len2 (first second : Word)
    (hd : first.direction ≠ second.direction)
    (h1 : 2 ≤ strByteLen first.value) (h2 : 2 ≤ strByteLen second.value) :
    first.get_bounding_box.same_direction_as second.get_bounding_box = false := by
  cases hf : first.direction <;> cases hs : second.direction <;>
    simp_all [Word.get_bounding_box, WordBoundingBox.same_direction_as] <;>
    omega

/-- Intersecting boxes of different orientation have intersection indices. -/
lemma get_intersection_indices_isSome (a b : WordBoundingBox)
    (hi : a.intersects b = true) (hs : a.same_direction_as b = false) :
    (a.get_intersection_indices b).isSome := by
  unfold WordBoundingBox.get_intersection_indices
  rw [hi, hs]
  simp only [Bool.not_true, Bool.false_eq_true, if_false]
  split <;> simp

/-- C2 (amended): `are_words_compatible` is total — the inner unwrap never
panics — whenever both words' texts have UTF-8 byte length at least two; the
counterexample forces the exclusion of texts of byte length at most one
(single ASCII characters or the empty text). -/
theorem C2_amended_compatible_total (s : WordCompatibilitySettings)
    (first second : Word)
    (h1 : 2 ≤ strByteLen first.value) (h2 : 2 ≤ strByteLen second.value) :
    (s.are_words_compatible first second).isSome := by
  unfold WordCompatibilitySettings.are_words_compatible
  split
  · simp
  split
  · (repeat' split) <;> simp
  · rename_i hd
    split
    · simp
    split
    · rename_i hi
      have hs := same_direction_as_false_of_len2 first second hd h1 h2
      have hii := get_intersection_indices_isSome _ _ (by simpa using hi) hs
      split
      · simp_all
      · simp
    · simp

/-- Witness for the amended C2 at two concrete two-letter words. -/
theorem C2_amended_compatible_total_witness :
    2 ≤ strByteLen (Word.mk ⟨0, 0⟩ .Right "ab").value ∧
    2 ≤ strByteLen (Word.mk ⟨0, 0⟩ .Down "bc").value ∧
    (WordCompatibilitySettings.default.are_words_compatible
      ⟨⟨0, 0⟩, .Right, "ab"⟩ ⟨⟨0, 0⟩, .Down, "bc"⟩).isSome :=
  ⟨by decide, by decide,
    C2_amended_compatible_total _ _ _ (by decide) (by decide)⟩

/-- Symmetry of `side_touches_side` on boxes of words whose texts both have
byte length at least two. -/
lemma side_touches_side_comm_of_len2 (a b : Word)
    (h1 : 2 ≤ strByteLen a.value) (h2 : 2 ≤ strByteLen b.value) :
    a.get_bounding_box.side_touches_side b.get_bounding_box =
      b.get_bounding_box.side_touches_side a.get_bounding_box := by
  have hA : ¬ strByteLen a.value = 1 := by omega
  have hB : ¬ strByteLen b.value = 1 := by omega
  obtain ⟨⟨xa, ya⟩, da, va⟩ := a
  obtain ⟨⟨xb, yb⟩, db, vb⟩ := b
  simp only at hA hB
  cases da <;> cases db <;>
    simp only [Word.get_bounding_box, WordBoundingBox.side_touches_side,
      WordBoundingBox.same_direction_as] <;>
    rw [Bool.eq_iff_iff] <;>
    simp [hA, hB] <;>
    omega

/-- Symmetry of `head_touches_head` on boxes of words whose texts both have
byte length at least two. -/
lemma head_touches_head_comm_of_len2 (a b : Word)
    (h1 : 2 ≤ strByteLen a.value) (h2 : 2 ≤ strByteLen b.value) :
    a.get_bounding_box.head_touches_head b.get_bounding_box =
      b.get_bounding_box.head_touches_head a.get_bounding_box := by
  have hA : ¬ strByteLen a.value = 1 := by omega
  have hB : ¬ strByteLen b.value = 1 := by omega
  obtain ⟨⟨xa, ya⟩, da, va⟩ := a
  obtain ⟨⟨xb, yb⟩, db, vb⟩ := b
  simp only at hA hB
  cases da <;> cases db <;>
    simp only [Word.get_bounding_box, WordBoundingBox.head_touches_head,
      WordBoundingBox.same_direction_as] <;>
    rw [Bool.eq_iff_iff] <;>
    simp [hA, hB] <;>
    omega

/-- C3 (amended): `intersects` and `corners` are symmetric on the bounding
boxes of arbitrary words, and `side_touches_side` and `head_touches_head`
are symmetric as soon as both texts have byte length at least two; the
counterexample forces excluding pairs where one word's box is a single cell. -/
theorem C3_amended_symmetry (a b : Word) :
    (a.get_bounding_box.intersects b.get_bounding_box =
      b.get_bounding_box.intersects a.get_bounding_box) ∧
    (a.get_bounding_box.corners b.get_bounding_box =
      b.get_bounding_box.corners a.get_bounding_box) ∧
    (2 ≤ strByteLen a.value → 2 ≤ strByteLen b.value →
      (a.get_bounding_box.side_touches_side b.get_bounding_box =
        b.get_bounding_box.side_touches_side a.get_bounding_box) ∧
      (a.get_bounding_box.head_touches_head b.get_bounding_box =
        b.get_bounding_box.head_touches_head a.get_bounding_box)) := by
  refine ⟨?_, ?_, fun h1 h2 => ⟨?_, ?_⟩⟩
  · rw [Bool.eq_iff_iff]
    simp only [WordBoundingBox.intersects, Bool.and_eq_true, decide_eq_true_eq]
    omega
  · rw [Bool.eq_iff_iff]
    simp only [WordBoundingBox.corners, Bool.and_eq_true, Bool.or_eq_true,
      beq_iff_eq]
    omega
  · exact side_touches_side_comm_of_len2 a b h1 h2
  · exact head_touches_head_comm_of_len2 a b h1 h2

/-- Witness for the amended C3 at two concrete two-letter words. -/
theorem C3_amended_symmetry_witness :
    (Word.get_bounding_box ⟨⟨0, 0⟩, .Right, "ab"⟩).side_touches_side
        (Word.get_bounding_box ⟨⟨0, 1⟩, .Down, "cd"⟩) =
      (Word.get_bounding_box ⟨⟨0, 1⟩, .Down, "cd"⟩).side_touches_side
        (Word.get_bounding_box ⟨⟨0, 0⟩, .Right, "ab"⟩) :=
  ((C3_amended_symmetry ⟨⟨0, 0⟩, .Right, "ab"⟩ ⟨⟨0, 1⟩, .Down, "cd"⟩).2.2
    (by decide) (by decide)).1

/-! Normalization: idempotence and the zero minimum corner. -/

lemma foldl_min_le_init (l : List Int) (init : Int) : l.foldl min init ≤ init := by
  induction l generalizing init with
  | nil => exact le_refl _
  | cons a l ih => exact le_trans (ih (min init a)) (min_le_left _ _)

lemma foldl_min_le_mem (l : List Int) (init x : Int) (hx : x ∈ l) :
    l.foldl min init ≤ x := by
  induction l generalizing init with
  | nil => cases hx
  | cons a l ih =>
    rcases List.mem_cons.mp hx with rfl | hx
    · exact le_trans (foldl_min_le_init l (min init x)) (min_le_right _ _)
    · exact ih _ hx

lemma le_foldl_min (l : List Int) (init c : Int) (hc : c ≤ init)
    (h : ∀ x ∈ l, c ≤ x) : c ≤ l.foldl min init := by
  induction l generalizing init with
  | nil => exact hc
  | cons a l ih =>
    exact ih _ (le_min hc (h a (List.mem_cons_self a l)))
      (fun x hx => h x (List.mem_cons_of_mem a hx))

lemma foldl_min_eq_init_or_mem (l : List Int) (init : Int) :
    l.foldl min init = init ∨ l.foldl min init ∈ l := by
  induction l generalizing init with
  | nil => exact Or.inl rfl
  | cons a l ih =>
    rcases ih (min init a) with h | h
    · rcases min_choice init a with h' | h'
      · exact Or.inl (h.trans h')
      · exact Or.inr (List.mem_cons.mpr (Or.inl (h.trans h')))
    · exact Or.inr (List.mem_cons_of_mem a h)

lemma pairFold_spec (ws : List Word) (init : Int × Int) :
    ws.foldl (fun mc w => (min mc.1 w.position.x, min mc.2 w.position.y)) init =
      ((ws.map (fun w => w.position.x)).foldl min init.1,
       (ws.map (fun w => w.position.y)).foldl min init.2) := by
  induction ws generalizing init with
  | nil => rfl
  | cons a l ih => simp [ih]

/-- The pair fold of `minCorner` splits into two scalar minimum folds. -/
lemma minCorner_spec (ws : List Word) :
    minCorner ws = ((ws.map (fun w => w.position.x)).foldl min isizeMax,
      (ws.map (fun w => w.position.y)).foldl min isizeMax) :=
  pairFold_spec ws (isizeMax, isizeMax)

lemma isizeMax_pos : (0 : Int) ≤ isizeMax := by norm_num [isizeMax]

/-- For a nonempty word list with representable coordinates, the minimum fold
value is attained among the coordinates. -/
lemma foldl_min_attained (l : List Int) (hne : l ≠ [])
    (hb : ∀ x ∈ l, x ≤ isizeMax) : l.foldl min isizeMax ∈ l := by
  rcases foldl_min_eq_init_or_mem l isizeMax with h | h
  · rcases List.exists_mem_of_ne_nil l hne with ⟨x, hx⟩
    have h1 := foldl_min_le_mem l isizeMax x hx
    have h2 := hb x hx
    have : x = l.foldl min isizeMax := le_antisymm (by rw [h]; exact h2) h1
    rwa [← this]
  · exact h

/-- The x coordinates of the normalized words. -/
lemma normalizeWords_map_x (ws : List Word) :
    (normalizeWords ws).map (fun w => w.position.x) =
      (ws.map (fun w => w.position.x)).map (fun x => x - (minCorner ws).1) := by
  simp [normalizeWords]

/-- The y coordinates of the normalized words. -/
lemma normalizeWords_map_y (ws : List Word) :
    (normalizeWords ws).map (fun w => w.position.y) =
      (ws.map (fun w => w.position.y)).map (fun y => y - (minCorner ws).2) := by
  simp [normalizeWords]

/-- After normalizing a nonempty list with representable coordinates both
components of the minimum corner are zero. -/
lemma minCorner_normalize (ws : List Word) (hne : ws ≠ [])
    (hb : ∀ w ∈ ws, w.position.x ≤ isizeMax ∧ w.position.y ≤ isizeMax) :
    minCorner (normalizeWords ws) = (0, 0) := by
  have hxattain : (ws.map (fun w => w.position.x)).foldl min isizeMax ∈
      ws.map (fun w => w.position.x) :=
    foldl_min_attained _ (by simpa using hne)
      (by intro x hx; rcases List.mem_map.mp hx with ⟨w, hw, rfl⟩; exact (hb w hw).1)
  have hyattain : (ws.map (fun w => w.position.y)).foldl min isizeMax ∈
      ws.map (fun w => w.position.y) :=
    foldl_min_attained _ (by simpa using hne)
      (by intro y hy; rcases List.mem_map.mp hy with ⟨w, hw, rfl⟩; exact (hb w hw).2)
  have comp : ∀ l : List Int, l.foldl min isizeMax ∈ l →
      (l.map (fun v => v - l.foldl min isizeMax)).foldl min isizeMax = 0 := by
    intro l hl
    apply le_antisymm
    · exact foldl_min_le_mem _ _ 0
        (List.mem_map.mpr ⟨_, hl, sub_self _⟩)
    · refine le_foldl_min _ _ _ isizeMax_pos ?_
      intro z hz
      rcases List.mem_map.mp hz with ⟨v, hv, rfl⟩
      have := foldl_min_le_mem l isizeMax v hv
      omega
  rw [minCorner_spec, normalizeWords_map_x, normalizeWords_map_y, minCorner_spec ws]
  simp only [Prod.mk.injEq]
  exact ⟨comp _ hxattain, comp _ hyattain⟩

/-- Normalizing by a zero corner is the identity. -/
lemma normalizeWords_of_minCorner_zero (ws : List Word)
    (h : minCorner ws = (0, 0)) : normalizeWords ws = ws := by
  unfold normalizeWords
  rw [h]
  have : ∀ w : Word,
      ({ w with position := ⟨w.position.x - (0, 0).1, w.position.y - (0, 0).2⟩ } : Word)
        = w := by
    intro w
    simp
  simp only [this, List.map_id']

/-- C7: `normalize` is idempotent on every crossword with representable
coordinates, and on a nonempty crossword it drives both components of the
minimum position corner to zero. -/
theorem C7_normalize_idempotent_min_zero (cw : Crossword)
    (hb : ∀ w ∈ cw.words, w.position.x ≤ isizeMax ∧ w.position.y ≤ isizeMax) :
    cw.normalize.normalize = cw.normalize ∧
    (cw.words ≠ [] → minCorner cw.normalize.words = (0, 0)) := by
  by_cases hne : cw.words = []
  · constructor
    · simp [Crossword.normalize, normalizeWords, hne]
    · intro h
      exact absurd hne h
  · have h0 := minCorner_normalize cw.words hne hb
    refine ⟨?_, fun _ => by simpa [Crossword.normalize] using h0⟩
    show cw.normalize.normalize = cw.normalize
    have : cw.normalize.normalize =
        { cw.normalize with words := normalizeWords cw.normalize.words } := rfl
    rw [this]
    rw [normalizeWords_of_minCorner_zero _ (by simpa [Crossword.normalize] using h0)]

/-- Witness for C7 at a concrete one-word crossword with negative offsets. -/
theorem C7_normalize_idempotent_min_zero_witness :
    (Crossword.mk [⟨⟨-1, 2⟩, .Right, "ab"⟩] .default ⟨[]⟩).normalize.normalize =
      (Crossword.mk [⟨⟨-1, 2⟩, .Right, "ab"⟩] .default ⟨[]⟩).normalize ∧
    minCorner (Crossword.mk [⟨⟨-1, 2⟩, .Right, "ab"⟩] .default ⟨[]⟩).normalize.words
      = (0, 0) :=
  ⟨(C7_normalize_idempotent_min_zero _ (by decide)).1,
    (C7_normalize_idempotent_min_zero _ (by decide)).2 (by decide)⟩

/-! Preservation of the unique-text invariant by the mutating operations. -/


/-- Normalization translates words, leaving the text list unchanged. -/
lemma normalizeWords_map_value (ws : List Word) :
    (normalizeWords ws).map (fun w => w.value) = ws.map (fun w => w.value) := by
  simp [normalizeWords]

/-- Adding a word preserves the unique-text invariant. -/
lemma distinctTexts_addWordL (ws : List Word) (word : Word)
    (h : distinctTexts ws) : distinctTexts (addWordL ws word) := by
  unfold addWordL
  split
  · exact h
  · rename_i hnone
    have hval : ∀ w ∈ ws, w.value ≠ word.value := by
      intro w hw hv
      exact hnone (List.any_eq_true.mpr ⟨w, hw, by simp [hv]⟩)
    have hnotmem : word ∉ ws := fun hmem => hval word hmem rfl
    unfold distinctTexts
    rw [normalizeWords_map_value, List.insert_of_not_mem hnotmem]
    refine List.Nodup.cons ?_ h
    intro hmem
    rcases List.mem_map.mp hmem with ⟨w, hw, hv⟩
    exact hval w hw hv

/-- Removing a word preserves the unique-text invariant. -/
lemma distinctTexts_removeWordL (ws : List Word) (v : String)
    (h : distinctTexts ws) : distinctTexts (removeWordL ws v) := by
  unfold removeWordL distinctTexts
  rw [normalizeWords_map_value]
  exact h.sublist (List.Sublist.map _ (List.erase_sublist _ _))


/-- C9: every crossword reachable from one with pairwise-distinct word texts
by any sequence of `add_word` and `remove_word` calls still has
pairwise-distinct word texts. -/
theorem C9_unique_texts_invariant (init : List Word) (ops : List CrosswordOp)
    (h : distinctTexts init) : distinctTexts (ops.foldl applyOp init) := by
  induction ops generalizing init with
  | nil => exact h
  | cons op ops ih =>
    refine ih (applyOp init op) ?_
    cases op with
    | add w => exact distinctTexts_addWordL init w h
    | remove v => exact distinctTexts_removeWordL init v h

/-- Witness for C9: a concrete operation sequence from a distinct-text
crossword. -/
theorem C9_unique_texts_invariant_witness :
    distinctTexts
      ([CrosswordOp.add ⟨⟨0, 0⟩, .Right, "hello"⟩,
        CrosswordOp.add ⟨⟨2, 0⟩, .Down, "local"⟩,
        CrosswordOp.add ⟨⟨1, 1⟩, .Down, "hello"⟩,
        CrosswordOp.remove "local"].foldl applyOp [⟨⟨5, 5⟩, .Down, "cat"⟩]) :=
  C9_unique_texts_invariant [⟨⟨5, 5⟩, .Down, "cat"⟩] _ (by decide)

/-! Totality of the rendering pipeline on nonempty in-bounds crosswords. -/

lemma le_foldl_max_init (l : List Int) (init : Int) : init ≤ l.foldl max init := by
  induction l generalizing init with
  | nil => exact le_refl _
  | cons a l ih => exact le_trans (le_max_left _ _) (ih (max init a))

lemma mem_le_foldl_max (l : List Int) (init x : Int) (hx : x ∈ l) :
    x ≤ l.foldl max init := by
  induction l generalizing init with
  | nil => cases hx
  | cons a l ih =>
    rcases List.mem_cons.mp hx with rfl | hx
    · exact le_trans (le_max_right init x) (le_foldl_max_init l (max init x))
    · exact ih _ hx

lemma foldl_max_le (l : List Int) (init c : Int) (hc : init ≤ c)
    (h : ∀ x ∈ l, x ≤ c) : l.foldl max init ≤ c := by
  induction l generalizing init with
  | nil => exact hc
  | cons a l ih =>
    exact ih _ (max_le hc (h a (List.mem_cons_self a l)))
      (fun x hx => h x (List.mem_cons_of_mem a hx))


lemma sizeFold_spec (ws : List Word) (init : Int × Int) :
    ws.foldl (fun mc w =>
      let mc := (max mc.1 (w.position.x + 1), max mc.2 (w.position.y + 1))
      match w.direction with
      | .Right => (max mc.1 (w.position.x + (w.value.data.length : Int)), mc.2)
      | .Down => (mc.1, max mc.2 (w.position.y + (w.value.data.length : Int)))) init =
    ((ws.map extentX).foldl max init.1, (ws.map extentY).foldl max init.2) := by
  induction ws generalizing init with
  | nil => rfl
  | cons a l ih =>
    rw [List.foldl_cons, ih]
    cases ha : a.direction <;>
      simp [extentX, extentY, ha, max_assoc]

/-- `get_size` as a componentwise maximum of word extents. -/
lemma getSize_spec (ws : List Word) :
    getSize ws = (usizeCast ((ws.map extentX).foldl max 0),
      usizeCast ((ws.map extentY).foldl max 0)) := by
  unfold getSize
  rw [sizeFold_spec ws (0, 0)]

lemma usizeCast_eq_toNat (i : Int) (h0 : 0 ≤ i) (h : i ≤ isizeMax) :
    usizeCast i = i.toNat := by
  unfold usizeCast
  rw [Int.emod_eq_of_lt h0 (by unfold isizeMax at h; omega)]


/-- Option-valued folds succeed and preserve an invariant when every step
does. -/
lemma foldlM_option_inv {α β : Type} (f : β → α → Option β) (P : β → Prop) :
    ∀ (l : List α) (init : β), P init →
    (∀ b a, P b → a ∈ l → ∃ b', f b a = some b' ∧ P b') →
    ∃ b', l.foldlM f init = some b' ∧ P b'
  | [], init, hinit, _ => ⟨init, rfl, hinit⟩
  | a :: l, init, hinit, hstep => by
    obtain ⟨b1, hb1, hP1⟩ := hstep init a hinit (List.mem_cons_self a l)
    obtain ⟨b', hb', hP'⟩ := foldlM_option_inv f P l b1 hP1
      (fun b x hb hx => hstep b x hb (List.mem_cons_of_mem a hx))
    exact ⟨b', by rw [List.foldlM_cons, hb1]; exact hb', hP'⟩


lemma setCell_some {H W : Nat} (t : List (List Char)) (r c : Nat) (ch : Char)
    (ht : tableShape H W t) (hr : r < H) (hc : c < W) :
    ∃ t', setCell t r c ch = some t' ∧ tableShape H W t' := by
  obtain ⟨hlen, hrows⟩ := ht
  have hr' : r < t.length := hlen ▸ hr
  have hget : t[r]? = some t[r] := List.getElem?_eq_getElem hr'
  have hrowlen : t[r].length = W := hrows _ (List.getElem_mem hr')
  have hc' : c < t[r].length := hrowlen ▸ hc
  refine ⟨t.set r (t[r].set c ch), ?_, ?_, ?_⟩
  · simp [setCell, hget, hc']
  · rw [List.length_set, hlen]
  · intro row hrow
    rcases List.mem_or_eq_of_mem_set hrow with h | h
    · exact hrows _ h
    · rw [h, List.length_set, hrowlen]

/-- Writing one in-bounds word into a well-shaped table succeeds and keeps
the shape, provided the table dimensions dominate the word's extents. -/
lemma writeWord_some {H W : Nat} (t : List (List Char)) (w : Word)
    (ht : tableShape H W t) (hwb : inBounds w)
    (hx1 : w.position.x + 1 ≤ (W : Int)) (hy1 : w.position.y + 1 ≤ (H : Int))
    (hxe : w.direction = .Right → w.position.x + (w.value.data.length : Int) ≤ (W : Int))
    (hye : w.direction = .Down → w.position.y + (w.value.data.length : Int) ≤ (H : Int)) :
    ∃ t', writeWord t w = some t' ∧ tableShape H W t' := by
  have hx0 := hwb.1
  have hy0 := hwb.2.1
  have hxm := hwb.2.2.1
  have hym := hwb.2.2.2.1
  unfold writeWord
  refine foldlM_option_inv _ (tableShape H W) _ t ht ?_
  intro b p hb hp
  have hip : p.1 < w.value.data.length := by
    have hm : p.1 ∈ w.value.data.enum.map Prod.fst := List.mem_map.mpr ⟨p, hp, rfl⟩
    rw [List.enum_map_fst] at hm
    exact List.mem_range.mp hm
  cases hdir : w.direction with
  | Right =>
    have hxe' := hxe hdir
    simp only [hdir]
    refine setCell_some b _ _ _ hb ?_ ?_
    · rw [usizeCast_eq_toNat _ hy0 (by omega)]
      omega
    · rw [usizeCast_eq_toNat _ hx0 (by omega)]
      omega
  | Down =>
    have hye' := hye hdir
    simp only [hdir]
    refine setCell_some b _ _ _ hb ?_ ?_
    · rw [usizeCast_eq_toNat _ hy0 (by omega)]
      omega
    · rw [usizeCast_eq_toNat _ hx0 (by omega)]
      omega

lemma pos_add_one_le_extentX (w : Word) : w.position.x + 1 ≤ extentX w := by
  cases hd : w.direction <;> simp [extentX, hd, le_max_iff]

lemma pos_add_one_le_extentY (w : Word) : w.position.y + 1 ≤ extentY w := by
  cases hd : w.direction <;> simp [extentY, hd, le_max_iff]

/-- C10 (amended): `generate_string` returns a rendered string without
panicking on every crossword with at least one word whose coordinates are
nonnegative and whose extents are representable — the normalized crosswords
the aggregate maintains; the counterexample forces excluding the empty
crossword. -/
theorem C10_amended_generate_string_total (ws : List Word) (hne : ws ≠ [])
    (hb : ∀ w ∈ ws, inBounds w) : (generateString ws).isSome := by
  have hmX0 : (0 : Int) ≤ (ws.map extentX).foldl max 0 := le_foldl_max_init _ _
  have hmY0 : (0 : Int) ≤ (ws.map extentY).foldl max 0 := le_foldl_max_init _ _
  have hmXM : (ws.map extentX).foldl max 0 ≤ isizeMax := by
    refine foldl_max_le _ _ _ isizeMax_pos ?_
    intro e he
    rcases List.mem_map.mp he with ⟨w, hw, rfl⟩
    obtain ⟨h1, h2, h3, h4, h5, h6⟩ := hb w hw
    have hlen : w.value.length = w.value.data.length := rfl
    cases hd : w.direction <;> simp [extentX, hd, max_le_iff] <;> omega
  have hmYM : (ws.map extentY).foldl max 0 ≤ isizeMax := by
    refine foldl_max_le _ _ _ isizeMax_pos ?_
    intro e he
    rcases List.mem_map.mp he with ⟨w, hw, rfl⟩
    obtain ⟨h1, h2, h3, h4, h5, h6⟩ := hb w hw
    have hlen : w.value.length = w.value.data.length := rfl
    cases hd : w.direction <;> simp [extentY, hd, max_le_iff] <;> omega
  have hWeq : getSize ws = (((ws.map extentX).foldl max 0).toNat,
      ((ws.map extentY).foldl max 0).toNat) := by
    rw [getSize_spec, usizeCast_eq_toNat _ hmX0 hmXM, usizeCast_eq_toNat _ hmY0 hmYM]
  have hshape : tableShape ((ws.map extentY).foldl max 0).toNat
      ((ws.map extentX).foldl max 0).toNat
      (List.replicate (getSize ws).2 (List.replicate (getSize ws).1 ' ')) := by
    rw [hWeq]
    exact ⟨List.length_replicate _ _, fun row hrow => by
      rw [List.eq_of_mem_replicate hrow]
      exact List.length_replicate _ _⟩
  have htab : ∃ t, generateCharTable ws = some t ∧
      tableShape ((ws.map extentY).foldl max 0).toNat
        ((ws.map extentX).foldl max 0).toNat t := by
    unfold generateCharTable
    refine foldlM_option_inv _ _ _ _ hshape ?_
    intro b w hbs hw
    have hex : extentX w ≤ (ws.map extentX).foldl max 0 :=
      mem_le_foldl_max _ _ _ (List.mem_map.mpr ⟨w, hw, rfl⟩)
    have hey : extentY w ≤ (ws.map extentY).foldl max 0 :=
      mem_le_foldl_max _ _ _ (List.mem_map.mpr ⟨w, hw, rfl⟩)
    have hx1 := pos_add_one_le_extentX w
    have hy1 := pos_add_one_le_extentY w
    refine writeWord_some b w hbs (hb w hw) (by omega) (by omega) ?_ ?_
    · intro hd
      have : w.position.x + (w.value.data.length : Int) ≤ extentX w := by
        simp [extentX, hd, le_max_iff]
      omega
    · intro hd
      have : w.position.y + (w.value.data.length : Int) ≤ extentY w := by
        simp [extentY, hd, le_max_iff]
      omega
  obtain ⟨t, htabeq, htlen, _⟩ := htab
  have hH1 : 1 ≤ ((ws.map extentY).foldl max 0).toNat := by
    rcases List.exists_mem_of_ne_nil ws hne with ⟨w0, hw0⟩
    have he : extentY w0 ≤ (ws.map extentY).foldl max 0 :=
      mem_le_foldl_max _ _ _ (List.mem_map.mpr ⟨w0, hw0, rfl⟩)
    have h1 := pos_add_one_le_extentY w0
    have h0 := (hb w0 hw0).2.1
    omega
  unfold generateString
  rw [htabeq]
  cases t with
  | nil => simp at htlen; omega
  | cons r0 rest => simp

/-- Witness for the amended C10 at a concrete one-word crossword. -/
theorem C10_amended_generate_string_total_witness :
    ([(⟨⟨0, 0⟩, .Right, "ab"⟩ : Word)] ≠ []) ∧
    (∀ w ∈ [(⟨⟨0, 0⟩, .Right, "ab"⟩ : Word)], inBounds w) ∧
    (generateString [⟨⟨0, 0⟩, .Right, "ab"⟩]).isSome :=
  ⟨by decide, by decide,
    C10_amended_generate_string_total _ (by decide) (by decide)⟩

/-! Characterization of the word-level placement-candidate generator. -/


lemma mem_foldl_insert {β : Type} (f : β → Word) (l : List β)
    (init : List Word) (x : Word) :
    x ∈ l.foldl (fun acc b => acc.insert (f b)) init ↔
      x ∈ init ∨ ∃ b ∈ l, x = f b := by
  induction l generalizing init with
  | nil => simp
  | cons a l ih =>
    rw [List.foldl_cons, ih]
    simp only [List.mem_insert_iff, List.mem_cons]
    constructor
    · rintro ((h | h) | ⟨b, hb, rfl⟩)
      · exact Or.inr ⟨a, Or.inl rfl, h⟩
      · exact Or.inl h
      · exact Or.inr ⟨b, Or.inr hb, rfl⟩
    · rintro (h | ⟨b, (rfl | hb), rfl⟩)
      · exact Or.inl (Or.inr h)
      · exact Or.inl (Or.inl rfl)
      · exact Or.inr ⟨b, hb, rfl⟩

lemma mem_nested_foldl (pairs : Char → List (Nat × Nat)) (mk : Nat × Nat → Word)
    (l : List Char) (init : List Word) (x : Word) :
    x ∈ l.foldl (fun acc c =>
        (pairs c).foldl (fun pw ij => pw.insert (mk ij)) acc) init ↔
      x ∈ init ∨ ∃ c ∈ l, ∃ ij ∈ pairs c, x = mk ij := by
  induction l generalizing init with
  | nil => simp
  | cons a l ih =>
    rw [List.foldl_cons, ih, mem_foldl_insert]
    simp only [List.mem_cons]
    constructor
    · rintro ((h | ⟨ij, hij, rfl⟩) | ⟨c, hc, hrest⟩)
      · exact Or.inl h
      · exact Or.inr ⟨a, Or.inl rfl, ij, hij, rfl⟩
      · exact Or.inr ⟨c, Or.inr hc, hrest⟩
    · rintro (h | ⟨c, (rfl | hc), hrest⟩)
      · exact Or.inl (Or.inl h)
      · exact Or.inl (Or.inr hrest)
      · exact Or.inr ⟨c, hc, hrest⟩

lemma mem_occurrenceIdx (s : List Char) (c : Char) (i : Nat) :
    i ∈ occurrenceIdx s c ↔ s[i]? = some c := by
  unfold occurrenceIdx
  rw [List.mem_filterMap]
  constructor
  · rintro ⟨⟨n, ch⟩, hp, hf⟩
    by_cases h : ch = c
    · subst h
      simp only [if_pos rfl] at hf
      cases hf
      exact List.mem_enum_iff_getElem?.mp hp
    · simp [h] at hf
  · intro h
    exact ⟨(i, c), List.mem_enum_iff_getElem?.mpr h, by simp⟩

/-- C5: the word-level candidate generator returns exactly the placements of
the full cartesian product of occurrence pairs of a shared character —
position `(x + j, y - i)` for a Horizontal existing word, `(x - i, y + j)`
for a Vertical one, direction opposite, and no validity checking against any
other word. -/
theorem C5_word_candidates_exact (self : Word) (t : String) (cand : Word) :
    cand ∈ self.calculate_possible_ways_to_add_word t ↔
      ∃ i j : Nat, (∃ c : Char, t.data[i]? = some c ∧ self.value.data[j]? = some c) ∧
        cand = specCandidate self t i j := by
  unfold Word.calculate_possible_ways_to_add_word
  rw [mem_nested_foldl]
  simp only [List.not_mem_nil, false_or]
  constructor
  · rintro ⟨c, hc, ⟨i, j⟩, hij, rfl⟩
    rcases List.mem_product.mp hij with ⟨hi, hj⟩
    rw [mem_occurrenceIdx] at hi hj
    exact ⟨i, j, ⟨c, hi, hj⟩, rfl⟩
  · rintro ⟨i, j, ⟨c, hi, hj⟩, rfl⟩
    refine ⟨c, ?_, ⟨i, j⟩, ?_, rfl⟩
    · rw [List.mem_filter]
      refine ⟨?_, ?_⟩
      · exact List.getElem?_mem hi
      · have : c ∈ self.value.data := List.getElem?_mem hj
        simpa using this
    · exact List.mem_product.mpr ⟨(mem_occurrenceIdx _ _ _).mpr hi,
        (mem_occurrenceIdx _ _ _).mpr hj⟩

end Cwg
